import Mathlib

/-!
Verification of the generic CPU compute-primitive layer
(`src/include/opennmt/primitives/cpu_generic.h`).

Buffers are shallowly embedded as functions `Nat → T` (a pointer into flat
contiguous memory), together with an explicit element count.  A loop that
writes `c[i]` for `i < size`, where each written value depends only on the
inputs at the same index, is modelled by the pointwise function that returns
the written value below `size` and the previous contents of the output buffer
elsewhere.  Loops whose write addresses are computed (the transpose family)
are modelled as a left fold of single-cell updates over the exact iteration
sequence of the C++ loop nest, so the write order is preserved.

Fixed-width machine integers of width `w` are modelled as mathematical
integers wrapped into `[-2^(w-1), 2^(w-1))` by `wrapI w` (two's-complement
semantics); `size_t` arithmetic is modelled as natural-number arithmetic
modulo `2^64` where a conversion occurs.  Floating-point values are idealized
as exact rationals `ℚ`; the float-to-integer cast, which in C++ truncates
toward zero, is modelled exactly by `cppTrunc`.
-/

namespace opennmt

namespace primitives

/-- Two's-complement wrap of an unbounded integer into the value range of a
signed machine integer of width `w`, i.e. into `[-2^(w-1), 2^(w-1))`. -/
def wrapI (w : Nat) (z : Int) : Int := (z + 2 ^ (w - 1)) % 2 ^ w - 2 ^ (w - 1)

/-- Embeds `unary_transform` (cpu_generic.h lines 12-16): the loop writes
`y[i] = func(x[i])` for every `i < size`; cells of the output buffer at or
beyond `size` keep their previous contents `y i`. -/
def unary_transform {T1 T2 : Type} (x : Nat → T1) (y : Nat → T2) (size : Nat)
    (func : T1 → T2) : Nat → T2 :=
  fun i => if i < size then func (x i) else y i

/-- Embeds `binary_transform` (lines 18-22): `c[i] = func(a[i], b[i])` for
`i < size`, previous contents of `c` elsewhere. -/
def binary_transform {T1 T2 : Type} (a b : Nat → T1) (c : Nat → T2) (size : Nat)
    (func : T1 → T1 → T2) : Nat → T2 :=
  fun i => if i < size then func (a i) (b i) else c i

/-- Embeds the elementwise `add` overload (lines 74-79) for a signed integer
element type of width `w`: `c[i] = a[i] + b[i]` with two's-complement wrap. -/
def add (w : Nat) (a b c : Nat → Int) (size : Nat) : Nat → Int :=
  binary_transform a b c size (fun v1 v2 => wrapI w (v1 + v2))

/-- Embeds the elementwise `sub` overload (lines 87-92) for a signed integer
element type of width `w`: `c[i] = a[i] - b[i]` with two's-complement wrap. -/
def sub (w : Nat) (a b c : Nat → Int) (size : Nat) : Nat → Int :=
  binary_transform a b c size (fun v1 v2 => wrapI w (v1 - v2))

/-- Embeds `sum` (lines 35-38): `std::accumulate` over the buffer with initial
value `0`, i.e. a left-to-right fold of the element type's addition; for a
signed integer element type of width `w` the addition wraps. -/
def sum (w : Nat) (array : Nat → Int) (size : Nat) : Int :=
  (List.range size).foldl (fun acc i => wrapI w (acc + array i)) 0

/-- Embeds `mean` (lines 40-43) for a signed integer element type of width
`w ≤ 64` and a 64-bit `size_t`.  The C++ expression is `sum(array, size) /
size`; by the usual arithmetic conversions the signed sum is converted to the
unsigned type of `size` (value modulo `2^64`), the division is unsigned, and
the quotient is converted back to the element type (value modulo `2^w`,
two's complement). -/
def mean (w : Nat) (array : Nat → Int) (size : Nat) : Int :=
  wrapI w ((((sum w array size) % 2 ^ 64).toNat / size : Nat) : Int)

/-- Truncating-division reference for `mean`, following the spec's words:
the sum divided by the size with integer division truncating toward zero. -/
def mean_spec (w : Nat) (array : Nat → Int) (size : Nat) : Int :=
  Int.tdiv (sum w array size) (size : Int)

/-- Example buffer holding three copies of `-1` (element type int32). -/
def negOnes : Nat → Int := fun _ => -1

lemma wrapI_emod_add (w : Nat) (x y : Int) :
    wrapI w (wrapI w x + y) = wrapI w (x + y) := by
  unfold wrapI
  have h1 : (x + 2 ^ (w - 1)) % 2 ^ w - 2 ^ (w - 1) + y + 2 ^ (w - 1)
      = (x + 2 ^ (w - 1)) % 2 ^ w + y := by ring
  rw [h1]
  have h2 : ((x + 2 ^ (w - 1)) % 2 ^ w + y) % 2 ^ w
      = (x + 2 ^ (w - 1) + y) % 2 ^ w := by
    conv_lhs => rw [Int.add_emod, Int.emod_emod_of_dvd _ (dvd_refl _)]
    rw [← Int.add_emod]
  rw [h2]
  have h3 : x + 2 ^ (w - 1) + y = x + y + 2 ^ (w - 1) := by ring
  rw [h3]

lemma wrapI_emod_sub (w : Nat) (x y : Int) :
    wrapI w (wrapI w x - y) = wrapI w (x - y) := by
  have := wrapI_emod_add w x (-y)
  simpa [sub_eq_add_neg] using this

lemma wrapI_eq_self (w : Nat) (hw : 0 < w) (z : Int)
    (hlo : -(2 ^ (w - 1)) ≤ z) (hhi : z < 2 ^ (w - 1)) : wrapI w z = z := by
  unfold wrapI
  have hsplit : (2 : Int) ^ w = 2 ^ (w - 1) * 2 := by
    rw [← pow_succ]
    congr 1
    omega
  have h0 : (0 : Int) ≤ z + 2 ^ (w - 1) := by linarith
  have h1 : z + 2 ^ (w - 1) < 2 ^ w := by
    rw [hsplit]; linarith
  rw [Int.emod_eq_of_lt h0 h1]
  ring

/-- C8.  Elementwise `add(a, b, c)` followed by elementwise `sub(c, b, c2)`
recovers `a` exactly at every index below `size`, for a fixed-width signed
integer element type of width `w` (arithmetic modulo `2^w`), whenever `a i`
is a representable value of that type. -/
theorem add_sub_roundtrip (w : Nat) (a b c c2 : Nat → Int) (size i : Nat)
    (hw : 0 < w) (hi : i < size)
    (hlo : -(2 ^ (w - 1)) ≤ a i) (hhi : a i < 2 ^ (w - 1)) :
    sub w (add w a b c size) b c2 size i = a i := by
  unfold sub add binary_transform
  simp only [hi, if_pos]
  rw [wrapI_emod_sub]
  have h : a i + b i - b i = a i := by ring
  rw [h]
  exact wrapI_eq_self w hw (a i) hlo hhi

/-- Witness for C8 at a concrete input: width 8, `a = [100]`, `b = [100]`
(the intermediate sum overflows int8 and wraps, yet the round trip is exact). -/
theorem add_sub_roundtrip_witness :
    0 < 8 ∧ (0 : Nat) < 1 ∧ -(2 ^ (8 - 1)) ≤ (100 : Int) ∧ (100 : Int) < 2 ^ (8 - 1) ∧
      sub 8 (add 8 (fun _ => 100) (fun _ => 100) (fun _ => 0) 1)
        (fun _ => 100) (fun _ => 0) 1 0 = 100 :=
  ⟨by decide, by decide, by decide, by decide,
    add_sub_roundtrip 8 (fun _ => 100) (fun _ => 100) (fun _ => 0) (fun _ => 0) 1 0
      (by decide) (by decide) (by decide) (by decide)⟩

/-- C2.  Evaluation of `mean` at the failing input: for element type int32
(`w = 32`) and the buffer `[-1, -1, -1]`, the sum is `-3` as the claim states,
but `mean` returns `1431655764` rather than the truncating quotient `-1`,
because `sum(array, size) / size` converts the signed sum to `size_t`
(unsigned 64-bit) before dividing. -/
theorem mean_negative_bug :
    sum 32 negOnes 3 = -3 ∧
      mean 32 negOnes 3 = 1431655764 ∧
      mean 32 negOnes 3 ≠ mean_spec 32 negOnes 3 ∧
      mean_spec 32 negOnes 3 = -1 := by
  refine ⟨by decide, by decide, by decide, by decide⟩

/-- Embeds `topk` (lines 55-62) for element type `Int` and index type `Nat`.
The code fills `indices[0..size)` with `0..size-1` via `std::iota` and then
calls `std::partial_sort(indices, indices + k, indices + size, comp)` with
`comp i1 i2 = x[i1] > x[i2]`.  `std::partial_sort` (C++ standard library, not
part of this repository) is modelled by a full stable sort of the index range
by the non-strict order induced by `comp`: this satisfies every guarantee the
standard gives for `partial_sort` (the first `k` positions hold the `k`
comp-smallest elements, i.e. the largest values, in comp-sorted order, and are
comp-≤ everything in `[k, size)`), fixing the unspecified tail order and the
tie-break to lower-original-index-first (stability). -/
def topk (x : Nat → Int) (k size : Nat) : List Nat :=
  List.insertionSort (fun i1 i2 => x i2 ≤ x i1) (List.range size)

/-- Example buffer `[1, 5, 3, 5, 2]` from the spec's testable properties. -/
def ex5 : Nat → Int := fun n => [1, 5, 3, 5, 2].getD n 0

/-- Example buffer `[3, 5, 5, 2]` from the spec's testable properties. -/
def ex4 : Nat → Int := fun n => [3, 5, 5, 2].getD n 0

lemma topk_perm (x : Nat → Int) (k size : Nat) :
    (topk x k size).Perm (List.range size) :=
  List.perm_insertionSort _ _

lemma topk_length (x : Nat → Int) (k size : Nat) :
    (topk x k size).length = size := by
  simpa [List.length_range] using (topk_perm x k size).length_eq

lemma topk_sorted (x : Nat → Int) (k size : Nat) :
    List.Sorted (fun i1 i2 => x i2 ≤ x i1) (topk x k size) := by
  haveI : IsTotal Nat (fun i1 i2 => x i2 ≤ x i1) := ⟨fun a b => le_total (x b) (x a)⟩
  haveI : IsTrans Nat (fun i1 i2 => x i2 ≤ x i1) := ⟨fun _ _ _ hab hbc => le_trans hbc hab⟩
  exact List.sorted_insertionSort _ _

/-- C3.  With `k ≤ size`, the first `k` entries of `topk` are `k` distinct
in-range indices whose values dominate the value at every other index; on
`[1, 5, 3, 5, 2]` with `k = 2` the selected values are exactly `[5, 5]`. -/
theorem topk_selects_maxima :
    (∀ (x : Nat → Int) (k size : Nat), k ≤ size →
        ((topk x k size).take k).length = k ∧
        ((topk x k size).take k).Nodup ∧
        (∀ i ∈ (topk x k size).take k, i < size) ∧
        (∀ i ∈ (topk x k size).take k, ∀ j, j < size →
            j ∉ (topk x k size).take k → x j ≤ x i)) ∧
      ((topk ex5 2 5).take 2).map ex5 = [5, 5] := by
  refine ⟨?_, by decide⟩
  intro x k size hk
  have hperm := topk_perm x k size
  have hlen := topk_length x k size
  have hnd : (topk x k size).Nodup := hperm.symm.nodup (List.nodup_range size)
  refine ⟨?_, ?_, ?_, ?_⟩
  · rw [List.length_take, hlen]
    exact min_eq_left hk
  · exact List.Nodup.sublist (List.take_sublist _ _) hnd
  · intro i hi
    have h1 : i ∈ topk x k size := List.take_subset _ _ hi
    have h2 : i ∈ List.range size := hperm.subset h1
    simpa using List.mem_range.mp h2
  · intro i hi j hj hjnot
    have hjmem : j ∈ topk x k size := hperm.symm.subset (List.mem_range.mpr hj)
    have hsplit : topk x k size = (topk x k size).take k ++ (topk x k size).drop k :=
      (List.take_append_drop k _).symm
    have hjdrop : j ∈ (topk x k size).drop k := by
      rcases List.mem_append.mp (by rw [← hsplit]; exact hjmem) with h | h
      · exact absurd h hjnot
      · exact h
    have hpw := topk_sorted x k size
    rw [hsplit] at hpw
    exact (List.pairwise_append.mp hpw).2.2 i hi j hjdrop

/-- Witness for C3 at the spec's concrete input `[1, 5, 3, 5, 2]`, `k = 2`. -/
theorem topk_selects_maxima_witness :
    2 ≤ 5 ∧
      (((topk ex5 2 5).take 2).length = 2 ∧
        ((topk ex5 2 5).take 2).Nodup ∧
        (∀ i ∈ (topk ex5 2 5).take 2, i < 5) ∧
        (∀ i ∈ (topk ex5 2 5).take 2, ∀ j, j < 5 →
            j ∉ (topk ex5 2 5).take 2 → ex5 j ≤ ex5 i)) :=
  ⟨by decide, topk_selects_maxima.1 ex5 2 5 (by decide)⟩

/-- C9.  `topk` writes all `size` entries of the index buffer, not only the
first `k`: `std::iota` fills `indices[0..size)` with `0..size-1` and
`std::partial_sort` only permutes that range, so afterwards the buffer holds
a permutation of `0..size-1` and must have capacity at least `size`. -/
theorem topk_writes_whole_buffer : ∀ (x : Nat → Int) (k size : Nat),
    (topk x k size).length = size ∧ (topk x k size).Perm (List.range size) :=
  fun x k size => ⟨topk_length x k size, topk_perm x k size⟩

/-- C10.  The first `k` entries returned by `topk` are sorted by
non-increasing value: for positions `p ≤ q < k ≤ size`, the value at the
`q`-th returned index is at most the value at the `p`-th returned index. -/
theorem topk_first_k_sorted_desc : ∀ (x : Nat → Int) (k size p q : Nat),
    p ≤ q → q < k → k ≤ size →
    x ((topk x k size).getD q 0) ≤ x ((topk x k size).getD p 0) := by
  intro x k size p q hpq hq hk
  have hlen := topk_length x k size
  have hq' : q < (topk x k size).length := by omega
  have hp' : p < (topk x k size).length := by omega
  rcases Nat.lt_or_ge p q with hlt | hge
  · have hrel := (topk_sorted x k size).rel_get_of_lt
      (a := ⟨p, hp'⟩) (b := ⟨q, hq'⟩) (by exact hlt)
    rw [List.getD_eq_getElem _ _ hq', List.getD_eq_getElem _ _ hp']
    simpa [List.get_eq_getElem] using hrel
  · have hpq' : p = q := by omega
    rw [hpq']

/-- Witness for C10 at `[1, 5, 3, 5, 2]`, `k = 2`, positions `0 ≤ 1 < 2`. -/
theorem topk_first_k_sorted_desc_witness :
    0 ≤ 1 ∧ 1 < 2 ∧ 2 ≤ 5 ∧
      ex5 ((topk ex5 2 5).getD 1 0) ≤ ex5 ((topk ex5 2 5).getD 0 0) :=
  ⟨by decide, by decide, by decide,
    topk_first_k_sorted_desc ex5 2 5 0 1 (by decide) (by decide) (by decide)⟩

/-- Embeds `max_element` (lines 45-48): `std::max_element` keeps the current
best and replaces it only on a strictly greater element, scanning left to
right from the first element, so the first occurrence of the maximum wins. -/
def max_element (x : Nat → Int) (size : Nat) : Nat :=
  (List.range' 1 (size - 1)).foldl (fun best i => if x best < x i then i else best) 0

/-- Embeds `max` (lines 50-53): the value stored at `max_element`. -/
def max (x : Nat → Int) (size : Nat) : Int := x (max_element x size)

lemma max_element_succ (x : Nat → Int) (n : Nat) :
    max_element x (n + 2) =
      if x (max_element x (n + 1)) < x (n + 1) then n + 1 else max_element x (n + 1) := by
  unfold max_element
  have h1 : n + 2 - 1 = n + 1 := rfl
  have h2 : n + 1 - 1 = n := rfl
  rw [h1, h2, List.range'_concat, List.foldl_append]
  simp only [List.foldl_cons, List.foldl_nil]
  have h3 : 1 + 1 * n = n + 1 := by omega
  rw [h3]

lemma max_element_spec (x : Nat → Int) : ∀ n : Nat,
    max_element x (n + 1) < n + 1 ∧
      (∀ j, j < n + 1 → x j ≤ x (max_element x (n + 1))) ∧
      (∀ j, j < max_element x (n + 1) → x j < x (max_element x (n + 1))) := by
  intro n
  induction n with
  | zero =>
    have h0 : max_element x 1 = 0 := rfl
    refine ⟨by rw [h0]; omega, ?_, ?_⟩
    · intro j hj
      have : j = 0 := by omega
      rw [this, h0]
    · intro j hj
      rw [h0] at hj
      omega
  | succ n ih =>
    obtain ⟨ihb, ihmax, ihfirst⟩ := ih
    have hstep : n + 1 + 1 = n + 2 := rfl
    rw [hstep, max_element_succ]
    by_cases hc : x (max_element x (n + 1)) < x (n + 1)
    · rw [if_pos hc]
      refine ⟨by omega, ?_, ?_⟩
      · intro j hj
        rcases Nat.lt_succ_iff_lt_or_eq.mp hj with h | h
        · exact le_trans (ihmax j h) (le_of_lt hc)
        · rw [h]
      · intro j hj
        exact lt_of_le_of_lt (ihmax j hj) hc
    · rw [if_neg hc]
      push_neg at hc
      refine ⟨by omega, ?_, ?_⟩
      · intro j hj
        rcases Nat.lt_succ_iff_lt_or_eq.mp hj with h | h
        · exact ihmax j h
        · rw [h]; exact hc
      · exact ihfirst

/-- C4.  On a non-empty buffer, `max_element` returns an in-range index
holding a maximum value, every index below it holds a strictly smaller value
(ties resolved toward the lowest index), and `max` returns the value stored
at that index; on `[3, 5, 5, 2]` the result is index `1` with value `5`. -/
theorem max_element_first_occurrence :
    (∀ (x : Nat → Int) (size : Nat), 0 < size →
        max_element x size < size ∧
        (∀ j, j < size → x j ≤ max x size) ∧
        (∀ j, j < max_element x size → x j < max x size) ∧
        max x size = x (max_element x size)) ∧
      max_element ex4 4 = 1 ∧ max ex4 4 = 5 := by
  refine ⟨?_, by decide, by decide⟩
  intro x size hs
  obtain ⟨n, rfl⟩ : ∃ n, size = n + 1 := ⟨size - 1, by omega⟩
  obtain ⟨h1, h2, h3⟩ := max_element_spec x n
  exact ⟨h1, h2, h3, rfl⟩

/-- Witness for C4 at the spec's concrete input `[3, 5, 5, 2]`. -/
theorem max_element_first_occurrence_witness :
    0 < 4 ∧
      (max_element ex4 4 < 4 ∧
        (∀ j, j < 4 → ex4 j ≤ max ex4 4) ∧
        (∀ j, j < max_element ex4 4 → ex4 j < max ex4 4) ∧
        max ex4 4 = ex4 (max_element ex4 4)) :=
  ⟨by decide, max_element_first_occurrence.1 ex4 4 (by decide)⟩

/-- Cast of a real value (idealized as `ℚ`) to an integer type: the C++
float-to-integer conversion truncates toward zero. -/
def cppTrunc (q : ℚ) : ℤ := if 0 ≤ q then ⌊q⌋ else ⌈q⌉

/-- Embeds `quantize` (lines 116-121): `y[i] = cast<Out>(x[i] * scale + shift)`
with no rounding step.  `In` is idealized as exact `ℚ`; the narrow integer
output type is modelled as `ℤ` carrying the exact truncated value (casting a
float whose truncation falls outside the output type's range is undefined
behavior, a caller-enforced precondition). -/
def quantize (x : Nat → ℚ) (y : Nat → ℤ) (size : Nat) (scale shift : ℚ) : Nat → ℤ :=
  unary_transform x y size (fun v => cppTrunc (v * scale + shift))

/-- Embeds `unquantize` (lines 123-128):
`y[i] = (cast<Out>(x[i]) - shift) / scale` with `Out` idealized as `ℚ`. -/
def unquantize (x : Nat → ℤ) (y : Nat → ℚ) (size : Nat) (scale shift : ℚ) : Nat → ℚ :=
  unary_transform x y size (fun v => ((v : ℚ) - shift) / scale)

lemma cppTrunc_err (q : ℚ) : |(cppTrunc q : ℚ) - q| < 1 := by
  unfold cppTrunc
  by_cases h : 0 ≤ q
  · rw [if_pos h]
    have h1 : ((⌊q⌋ : ℤ) : ℚ) ≤ q := Int.floor_le q
    have h2 : q < ((⌊q⌋ : ℤ) : ℚ) + 1 := Int.lt_floor_add_one q
    rw [abs_sub_lt_iff]
    constructor <;> linarith
  · rw [if_neg h]
    have h1 : q ≤ ((⌈q⌉ : ℤ) : ℚ) := Int.le_ceil q
    have h2 : ((⌈q⌉ : ℤ) : ℚ) < q + 1 := Int.ceil_lt_add_one q
    rw [abs_sub_lt_iff]
    constructor <;> linarith

/-- C6.  `quantize` stores the truncation toward zero of `x[i]*scale + shift`
(no rounding step), and `unquantize` with the same scale and shift recovers
the original value within `1/scale`, for positive scale. -/
theorem quantize_unquantize_roundtrip :
    ∀ (x : Nat → ℚ) (y : Nat → ℤ) (z : Nat → ℚ) (size : Nat) (scale shift : ℚ)
      (i : Nat), i < size → 0 < scale →
      quantize x y size scale shift i = cppTrunc (x i * scale + shift) ∧
      |unquantize (quantize x y size scale shift) z size scale shift i - x i|
        ≤ 1 / scale := by
  intro x y z size scale shift i hi hs
  have hq : quantize x y size scale shift i = cppTrunc (x i * scale + shift) := by
    unfold quantize unary_transform
    rw [if_pos hi]
  refine ⟨hq, ?_⟩
  have huq : unquantize (quantize x y size scale shift) z size scale shift i
      = ((cppTrunc (x i * scale + shift) : ℚ) - shift) / scale := by
    unfold unquantize unary_transform
    rw [if_pos hi, hq]
  rw [huq]
  have hne : scale ≠ 0 := ne_of_gt hs
  have key : ((cppTrunc (x i * scale + shift) : ℚ) - shift) / scale - x i
      = ((cppTrunc (x i * scale + shift) : ℚ) - (x i * scale + shift)) / scale := by
    field_simp
    ring
  rw [key, abs_div, abs_of_pos hs]
  exact (div_le_div_iff_of_pos_right hs).mpr (le_of_lt (cppTrunc_err (x i * scale + shift)))

/-- Witness for C6 at input `x = [2/3]`, `scale = 1`, `shift = 0`: the
quantized value is `0` and the round trip lands within `1`. -/
theorem quantize_unquantize_roundtrip_witness :
    (0 : Nat) < 1 ∧ (0 : ℚ) < 1 ∧
      (quantize (fun _ => (2 : ℚ)/3) (fun _ => 0) 1 1 0 0
          = cppTrunc ((2 : ℚ)/3 * 1 + 0) ∧
        |unquantize (quantize (fun _ => (2 : ℚ)/3) (fun _ => 0) 1 1 0)
            (fun _ => 0) 1 1 0 0 - (2 : ℚ)/3| ≤ 1 / 1) :=
  ⟨by norm_num, by norm_num,
    quantize_unquantize_roundtrip (fun _ => (2 : ℚ)/3) (fun _ => 0) (fun _ => 0)
      1 1 0 0 (by norm_num) (by norm_num)⟩

/-- Pointer arithmetic `p + off` on a buffer: the view starting at `off`. -/
def ptrShift {α : Type} (p : Nat → α) (off : Nat) : Nat → α := fun j => p (off + j)

/-- Writing through the offset pointer `base + off`: the callee receives the
view at `off` and returns the updated view; memory below `off` is untouched
(a callee can only access nonnegative offsets from the pointer it is given). -/
def writeThrough {α : Type} (base : Nat → α) (off : Nat) (v : Nat → α) : Nat → α :=
  fun q => if off ≤ q then v (q - off) else base q

/-- Type of an abstract `gemm` backend (cpu_generic.h lines 233-238 declare
`gemm` as an interface contract with no body in this layer): it receives the
`a` and `b` views, the transpose flags, `m n k`, `alpha`, `beta`, and the `c`
view, and returns the updated `c` view. -/
def GemmBackend (In Out : Type) : Type :=
  (Nat → In) → (Nat → In) → Bool → Bool → Nat → Nat → Nat → In → Out →
    (Nat → Out) → (Nat → Out)

/-- Embeds `gemm_batch` (lines 240-254) over an abstract backend `G`: for
`i` in `[0, batch_size)` in increasing order it calls `G` on the slice
pointers `a + i*m*k`, `b + i*k*n`, `c + i*m*n` with the same transpose flags,
dimensions and scalars. -/
def gemm_batch {In Out : Type} (G : GemmBackend In Out)
    (a b : Nat → In) (transpose_a transpose_b : Bool)
    (batch_size m n k : Nat) (alpha : In) (beta : Out) (c : Nat → Out) :
    Nat → Out :=
  (List.range batch_size).foldl
    (fun cc i =>
      writeThrough cc (i * m * n)
        (G (ptrShift a (i * m * k)) (ptrShift b (i * k * n))
          transpose_a transpose_b m n k alpha beta (ptrShift cc (i * m * n)))) c

/-- Reference definition following the spec's words for `gemm_batch`: slice
`a`, `b`, `c` into `batch_size` contiguous blocks of `m*k`, `k*n`, `m*n`
elements and invoke `gemm` once per slice, in order of increasing slice
index, sequentially. -/
def gemm_batch_spec {In Out : Type} (G : GemmBackend In Out)
    (a b : Nat → In) (transpose_a transpose_b : Bool)
    (batch_size m n k : Nat) (alpha : In) (beta : Out) (c : Nat → Out) :
    Nat → Out :=
  match batch_size with
  | 0 => c
  | bs + 1 =>
    let prev := gemm_batch_spec G a b transpose_a transpose_b bs m n k alpha beta c
    writeThrough prev (bs * m * n)
      (G (ptrShift a (bs * m * k)) (ptrShift b (bs * k * n))
        transpose_a transpose_b m n k alpha beta (ptrShift prev (bs * m * n)))

lemma ptrShift_zero {α : Type} (p : Nat → α) : ptrShift p 0 = p :=
  funext fun j => by simp [ptrShift]

lemma writeThrough_zero {α : Type} (base v : Nat → α) : writeThrough base 0 v = v :=
  funext fun q => by simp [writeThrough]

lemma gemm_batch_zero {In Out : Type} (G : GemmBackend In Out)
    (a b : Nat → In) (ta tb : Bool) (m n k : Nat) (alpha : In) (beta : Out)
    (c : Nat → Out) : gemm_batch G a b ta tb 0 m n k alpha beta c = c := rfl

lemma gemm_batch_succ {In Out : Type} (G : GemmBackend In Out)
    (a b : Nat → In) (ta tb : Bool) (bs m n k : Nat) (alpha : In) (beta : Out)
    (c : Nat → Out) :
    gemm_batch G a b ta tb (bs + 1) m n k alpha beta c =
      writeThrough (gemm_batch G a b ta tb bs m n k alpha beta c) (bs * m * n)
        (G (ptrShift a (bs * m * k)) (ptrShift b (bs * k * n)) ta tb m n k
          alpha beta
          (ptrShift (gemm_batch G a b ta tb bs m n k alpha beta c) (bs * m * n))) := by
  unfold gemm_batch
  rw [List.range_succ, List.foldl_append]
  simp only [List.foldl_cons, List.foldl_nil]

/-- C5.  `gemm_batch` coincides with the spec's slicing description (blocks of
`m*k`, `k*n`, `m*n` elements at offsets `i*m*k`, `i*k*n`, `i*m*n`, one `gemm`
invocation per slice in increasing order with identical flags, dimensions and
scalars), and with `batch_size = 1` it is identical to a single direct `gemm`
call on the same buffers. -/
theorem gemm_batch_slices_and_single :
    (∀ (In Out : Type) (G : GemmBackend In Out) (a b : Nat → In) (ta tb : Bool)
        (batch_size m n k : Nat) (alpha : In) (beta : Out) (c : Nat → Out),
        gemm_batch G a b ta tb batch_size m n k alpha beta c
          = gemm_batch_spec G a b ta tb batch_size m n k alpha beta c) ∧
      (∀ (In Out : Type) (G : GemmBackend In Out) (a b : Nat → In) (ta tb : Bool)
        (m n k : Nat) (alpha : In) (beta : Out) (c : Nat → Out),
        gemm_batch G a b ta tb 1 m n k alpha beta c
          = G a b ta tb m n k alpha beta c) := by
  constructor
  · intro In Out G a b ta tb batch_size m n k alpha beta c
    induction batch_size with
    | zero => rfl
    | succ t ih =>
      rw [gemm_batch_succ, ih]
      rfl
  · intro In Out G a b ta tb m n k alpha beta c
    have h := gemm_batch_succ G a b ta tb 0 m n k alpha beta c
    simp only [Nat.zero_add, gemm_batch_zero, Nat.zero_mul, ptrShift_zero,
      writeThrough_zero] at h
    exact h

/-- Left fold of single-cell stores `b[key t] = val t` over the iteration
sequence `l`, modelling a loop nest that writes one output cell per
iteration. -/
def updFold {α ι : Type} (key : ι → Nat) (val : ι → α) (l : List ι) (b : Nat → α) :
    Nat → α :=
  l.foldl (fun f t => Function.update f (key t) (val t)) b

lemma updFold_cons {α ι : Type} (key : ι → Nat) (val : ι → α) (x : ι) (l : List ι)
    (b : Nat → α) :
    updFold key val (x :: l) b = updFold key val l (Function.update b (key x) (val x)) :=
  rfl

lemma updFold_miss {α ι : Type} (key : ι → Nat) (val : ι → α) :
    ∀ (l : List ι) (b : Nat → α) (n : Nat), (∀ t ∈ l, key t ≠ n) →
      updFold key val l b n = b n := by
  intro l
  induction l with
  | nil => intro b n _; rfl
  | cons a tl ih =>
    intro b n h
    rw [updFold_cons, ih _ n (fun t ht => h t (List.mem_cons_of_mem a ht))]
    exact Function.update_noteq (Ne.symm (h a (List.mem_cons_self a tl))) _ b

lemma updFold_hit {α ι : Type} (key : ι → Nat) (val : ι → α) :
    ∀ (l : List ι) (b : Nat → α) (x : ι), x ∈ l →
      (∀ y ∈ l, key y = key x → val y = val x) →
      updFold key val l b (key x) = val x := by
  intro l
  induction l with
  | nil => intro b x hx _; exact absurd hx (List.not_mem_nil x)
  | cons a tl ih =>
    intro b x hx huniq
    rw [updFold_cons]
    by_cases hex : ∃ y ∈ tl, key y = key x
    · obtain ⟨y, hy, hky⟩ := hex
      have h1 : updFold key val tl (Function.update b (key a) (val a)) (key y) = val y :=
        ih _ y hy (fun z hz hkz => by
          rw [huniq z (List.mem_cons_of_mem a hz) (by rw [hkz, hky]),
            huniq y (List.mem_cons_of_mem a hy) hky])
      rw [← hky, h1, huniq y (List.mem_cons_of_mem a hy) hky]
    · push_neg at hex
      rcases List.mem_cons.mp hx with h | h
      · subst h
        rw [updFold_miss key val tl _ _ hex]
        exact Function.update_same _ _ _
      · exact absurd rfl (hex x h)

lemma pair_inj {d a b a2 b2 : Nat} (hb : b < d) (hb2 : b2 < d)
    (h : a * d + b = a2 * d + b2) : a = a2 ∧ b = b2 := by
  have hd : 0 < d := Nat.lt_of_le_of_lt (Nat.zero_le b) hb
  have e1 : (d * a + b) / d = a := by
    rw [Nat.mul_add_div hd, Nat.div_eq_of_lt hb, Nat.add_zero]
  have e2 : (d * a2 + b2) / d = a2 := by
    rw [Nat.mul_add_div hd, Nat.div_eq_of_lt hb2, Nat.add_zero]
  have h' : d * a + b = d * a2 + b2 := by
    rw [Nat.mul_comm d a, Nat.mul_comm d a2]; exact h
  have ha : a = a2 := by rw [← e1, h', e2]
  subst ha
  exact ⟨rfl, Nat.add_left_cancel h⟩

lemma mixed2_inj {d0 a0 a1 b0 b1 : Nat} (h0 : a0 < d0) (h0' : b0 < d0)
    (h : a1 * d0 + a0 = b1 * d0 + b0) : a1 = b1 ∧ a0 = b0 :=
  pair_inj h0 h0' h

lemma mixed3_inj {D1 D2 a0 a1 a2 b0 b1 b2 : Nat}
    (h1 : a1 < D1) (h2 : a2 < D2) (h1' : b1 < D1) (h2' : b2 < D2)
    (h : a0 * (D1 * D2) + a1 * D2 + a2 = b0 * (D1 * D2) + b1 * D2 + b2) :
    a0 = b0 ∧ a1 = b1 ∧ a2 = b2 := by
  have hre : ∀ c0 c1 c2 : Nat,
      c0 * (D1 * D2) + c1 * D2 + c2 = (c0 * D1 + c1) * D2 + c2 := by
    intro c0 c1 c2; ring
  rw [hre, hre] at h
  obtain ⟨hA, hc2⟩ := pair_inj h2 h2' h
  obtain ⟨h0, hc1⟩ := pair_inj h1 h1' hA
  exact ⟨h0, hc1, hc2⟩

lemma mixed4_inj {D1 D2 D3 a0 a1 a2 a3 b0 b1 b2 b3 : Nat}
    (h1 : a1 < D1) (h2 : a2 < D2) (h3 : a3 < D3)
    (h1' : b1 < D1) (h2' : b2 < D2) (h3' : b3 < D3)
    (h : a0 * (D1 * D2 * D3) + a1 * (D2 * D3) + a2 * D3 + a3
        = b0 * (D1 * D2 * D3) + b1 * (D2 * D3) + b2 * D3 + b3) :
    a0 = b0 ∧ a1 = b1 ∧ a2 = b2 ∧ a3 = b3 := by
  have hre : ∀ c0 c1 c2 c3 : Nat,
      c0 * (D1 * D2 * D3) + c1 * (D2 * D3) + c2 * D3 + c3
        = ((c0 * D1 + c1) * D2 + c2) * D3 + c3 := by
    intro c0 c1 c2 c3; ring
  rw [hre, hre] at h
  obtain ⟨hA, hc3⟩ := pair_inj h3 h3' h
  obtain ⟨hB, hc2⟩ := pair_inj h2 h2' hA
  obtain ⟨h0, hc1⟩ := pair_inj h1 h1' hB
  exact ⟨h0, hc1, hc2, hc3⟩

/-- Iteration sequence of the 2-level loop nest of `transpose_2d`, in the
exact order the C++ loops visit the multi-indices. -/
def loopIxs2 (d0 d1 : Nat) : List (Fin 2 → Nat) :=
  (List.range d0).flatMap (fun i0 => (List.range d1).map (fun i1 => ![i0, i1]))

/-- Iteration sequence of the 3-level loop nest of `transpose_3d`. -/
def loopIxs3 (d0 d1 d2 : Nat) : List (Fin 3 → Nat) :=
  (List.range d0).flatMap (fun i0 =>
    (List.range d1).flatMap (fun i1 =>
      (List.range d2).map (fun i2 => ![i0, i1, i2])))

/-- Iteration sequence of the 4-level loop nest of `transpose_4d`. -/
def loopIxs4 (d0 d1 d2 d3 : Nat) : List (Fin 4 → Nat) :=
  (List.range d0).flatMap (fun i0 =>
    (List.range d1).flatMap (fun i1 =>
      (List.range d2).flatMap (fun i2 =>
        (List.range d3).map (fun i3 => ![i0, i1, i2, i3]))))

lemma mem_loopIxs2 {d0 d1 : Nat} {v : Fin 2 → Nat} :
    v ∈ loopIxs2 d0 d1 ↔ ∃ i0, i0 < d0 ∧ ∃ i1, i1 < d1 ∧ ![i0, i1] = v := by
  simp [loopIxs2]

lemma mem_loopIxs3 {d0 d1 d2 : Nat} {v : Fin 3 → Nat} :
    v ∈ loopIxs3 d0 d1 d2 ↔
      ∃ i0, i0 < d0 ∧ ∃ i1, i1 < d1 ∧ ∃ i2, i2 < d2 ∧ ![i0, i1, i2] = v := by
  simp [loopIxs3]

lemma mem_loopIxs4 {d0 d1 d2 d3 : Nat} {v : Fin 4 → Nat} :
    v ∈ loopIxs4 d0 d1 d2 d3 ↔
      ∃ i0, i0 < d0 ∧ ∃ i1, i1 < d1 ∧ ∃ i2, i2 < d2 ∧ ∃ i3, i3 < d3 ∧
        ![i0, i1, i2, i3] = v := by
  simp [loopIxs4]

/-- Embeds `transpose_2d` (lines 142-149): for every `i0 < dims[0]`,
`i1 < dims[1]` (in loop order) it stores `b[i1*dims[0] + i0] =
a[i0*dims[1] + i1]`. -/
def transpose_2d {α : Type} (a : Nat → α) (dims : Fin 2 → Nat) (b : Nat → α) :
    Nat → α :=
  updFold (fun v => v 1 * dims 0 + v 0) (fun v => a (v 0 * dims 1 + v 1))
    (loopIxs2 (dims 0) (dims 1)) b

/-- Example buffer `[1, 2, 3, 4, 5, 6]` from the spec's testable properties. -/
def ex6 : Nat → Int := fun n => [1, 2, 3, 4, 5, 6].getD n 0

/-- C7.  `transpose_2d` with shape `dims` writes `b[i1*dims[0] + i0] =
a[i0*dims[1] + i1]` for every in-range `(i0, i1)`; on dims `[2, 3]` with
input `[1, 2, 3, 4, 5, 6]` the output is `[1, 4, 2, 5, 3, 6]`. -/
theorem transpose_2d_correct :
    (∀ (α : Type) (a b : Nat → α) (dims : Fin 2 → Nat) (i0 i1 : Nat),
        i0 < dims 0 → i1 < dims 1 →
        transpose_2d a dims b (i1 * dims 0 + i0) = a (i0 * dims 1 + i1)) ∧
      (List.range 6).map (transpose_2d ex6 ![2, 3] (fun _ => 0))
        = [1, 4, 2, 5, 3, 6] := by
  refine ⟨?_, by decide⟩
  intro α a b dims i0 i1 h0 h1
  have hmem : (![i0, i1] : Fin 2 → Nat) ∈ loopIxs2 (dims 0) (dims 1) :=
    mem_loopIxs2.mpr ⟨i0, h0, i1, h1, rfl⟩
  have huniq : ∀ y ∈ loopIxs2 (dims 0) (dims 1),
      y 1 * dims 0 + y 0
        = (![i0, i1] : Fin 2 → Nat) 1 * dims 0 + (![i0, i1] : Fin 2 → Nat) 0 →
      a (y 0 * dims 1 + y 1)
        = a ((![i0, i1] : Fin 2 → Nat) 0 * dims 1 + (![i0, i1] : Fin 2 → Nat) 1) := by
    intro y hy hk
    obtain ⟨j0, hj0, j1, hj1, rfl⟩ := mem_loopIxs2.mp hy
    have hk' : j1 * dims 0 + j0 = i1 * dims 0 + i0 := by simpa using hk
    obtain ⟨he1, he0⟩ := mixed2_inj hj0 h0 hk'
    subst he1
    subst he0
    rfl
  exact updFold_hit (fun v => v 1 * dims 0 + v 0) (fun v => a (v 0 * dims 1 + v 1))
    (loopIxs2 (dims 0) (dims 1)) b ![i0, i1] hmem huniq

/-- Witness for C7: on dims `[2, 3]`, the cell at output offset `1*2 + 0`
receives the input at offset `0*3 + 1`. -/
theorem transpose_2d_correct_witness :
    (0 : Nat) < 2 ∧ (1 : Nat) < 3 ∧
      transpose_2d ex6 ![2, 3] (fun _ => 0) (1 * 2 + 0) = ex6 (0 * 3 + 1) :=
  ⟨by decide, by decide,
    transpose_2d_correct.1 Int ex6 (fun _ => 0) ![2, 3] 0 1 (by decide) (by decide)⟩

/-- Inverse-permutation array of `transpose_3d` (lines 156-158):
`perm_ind[perm[i]] = i` for `i = 0, 1, 2`, written in increasing `i` over an
uninitialized stack array (modelled zero-initialized; for a bijective `perm`
every slot is overwritten, so the initial contents are irrelevant). -/
def perm_ind3 (perm : Fin 3 → Fin 3) : Fin 3 → Fin 3 :=
  Function.update
    (Function.update (Function.update (fun _ => 0) (perm 0) 0) (perm 1) 1)
    (perm 2) 2

/-- Source strides of `transpose_3d` (line 159). -/
def a_stride3 (dims : Fin 3 → Nat) : Fin 3 → Nat := ![dims 1 * dims 2, dims 2, 1]

/-- Destination strides of `transpose_3d` (line 160): row-major strides of
the permuted extents. -/
def b_stride3 (dims : Fin 3 → Nat) (perm : Fin 3 → Fin 3) : Fin 3 → Nat :=
  ![dims (perm 1) * dims (perm 2), dims (perm 2), 1]

/-- Destination strides re-indexed by the inverse permutation
(lines 161-162). -/
def perm_b_stride3 (dims : Fin 3 → Nat) (perm : Fin 3 → Fin 3) : Fin 3 → Nat :=
  fun t => b_stride3 dims perm (perm_ind3 perm t)

/-- Embeds `transpose_3d` (lines 151-175): for every in-range multi-index
`(i0, i1, i2)` in loop order it stores
`b[i0*perm_b_stride[0] + i1*perm_b_stride[1] + i2*perm_b_stride[2]] =
a[i0*a_stride[0] + i1*a_stride[1] + i2*a_stride[2]]`. -/
def transpose_3d {α : Type} (a : Nat → α) (dims : Fin 3 → Nat)
    (perm : Fin 3 → Fin 3) (b : Nat → α) : Nat → α :=
  updFold
    (fun v => v 0 * perm_b_stride3 dims perm 0 + v 1 * perm_b_stride3 dims perm 1 +
      v 2 * perm_b_stride3 dims perm 2)
    (fun v => a (v 0 * a_stride3 dims 0 + v 1 * a_stride3 dims 1 +
      v 2 * a_stride3 dims 2))
    (loopIxs3 (dims 0) (dims 1) (dims 2)) b

lemma perm_ind3_apply (perm : Fin 3 → Fin 3) (hinj : Function.Injective perm)
    (t : Fin 3) : perm_ind3 perm (perm t) = t := by
  have h01 : perm 0 ≠ perm 1 := fun h => absurd (hinj h) (by decide)
  have h02 : perm 0 ≠ perm 2 := fun h => absurd (hinj h) (by decide)
  have h12 : perm 1 ≠ perm 2 := fun h => absurd (hinj h) (by decide)
  have h0 : perm_ind3 perm (perm 0) = 0 := by
    unfold perm_ind3
    rw [Function.update_noteq h02, Function.update_noteq h01, Function.update_same]
  have h1 : perm_ind3 perm (perm 1) = 1 := by
    unfold perm_ind3
    rw [Function.update_noteq h12, Function.update_same]
  have h2 : perm_ind3 perm (perm 2) = 2 := by
    unfold perm_ind3
    rw [Function.update_same]
  fin_cases t
  · exact h0
  · exact h1
  · exact h2

lemma reindex3 (g : Fin 3 → Nat) (p : Fin 3 → Fin 3) (hp : Function.Bijective p) :
    g (p 0) + g (p 1) + g (p 2) = g 0 + g 1 + g 2 := by
  have h := Equiv.sum_comp (Equiv.ofBijective p hp) g
  rw [Fin.sum_univ_three, Fin.sum_univ_three] at h
  exact h

lemma addr3_eq (dims : Fin 3 → Nat) (perm : Fin 3 → Fin 3)
    (hp : Function.Bijective perm) (v : Fin 3 → Nat) :
    v 0 * perm_b_stride3 dims perm 0 + v 1 * perm_b_stride3 dims perm 1 +
        v 2 * perm_b_stride3 dims perm 2
      = v (perm 0) * (dims (perm 1) * dims (perm 2)) + v (perm 1) * dims (perm 2) +
        v (perm 2) := by
  have e0 := perm_ind3_apply perm hp.injective 0
  have e1 := perm_ind3_apply perm hp.injective 1
  have e2 := perm_ind3_apply perm hp.injective 2
  have h := reindex3 (fun s => v s * b_stride3 dims perm (perm_ind3 perm s)) perm hp
  beta_reduce at h
  rw [e0, e1, e2] at h
  have hL : ∀ t : Fin 3, v t * perm_b_stride3 dims perm t
      = v t * b_stride3 dims perm (perm_ind3 perm t) := fun t => rfl
  rw [hL 0, hL 1, hL 2, ← h]
  simp [b_stride3]

lemma transpose_3d_spec (α : Type) (a b : Nat → α) (dims : Fin 3 → Nat)
    (perm : Fin 3 → Fin 3) (hp : Function.Bijective perm) (i : Fin 3 → Nat)
    (hi : ∀ t, i t < dims t) :
    transpose_3d a dims perm b
        (i (perm 0) * (dims (perm 1) * dims (perm 2)) + i (perm 1) * dims (perm 2) +
          i (perm 2))
      = a (i 0 * (dims 1 * dims 2) + i 1 * dims 2 + i 2) := by
  have hveq : (![i 0, i 1, i 2] : Fin 3 → Nat) = i := by
    funext t
    fin_cases t <;> rfl
  have hmem : i ∈ loopIxs3 (dims 0) (dims 1) (dims 2) :=
    mem_loopIxs3.mpr ⟨i 0, hi 0, i 1, hi 1, i 2, hi 2, hveq⟩
  have huniq : ∀ y ∈ loopIxs3 (dims 0) (dims 1) (dims 2),
      y 0 * perm_b_stride3 dims perm 0 + y 1 * perm_b_stride3 dims perm 1 +
          y 2 * perm_b_stride3 dims perm 2
        = i 0 * perm_b_stride3 dims perm 0 + i 1 * perm_b_stride3 dims perm 1 +
          i 2 * perm_b_stride3 dims perm 2 →
      a (y 0 * a_stride3 dims 0 + y 1 * a_stride3 dims 1 + y 2 * a_stride3 dims 2)
        = a (i 0 * a_stride3 dims 0 + i 1 * a_stride3 dims 1 + i 2 * a_stride3 dims 2) := by
    intro y hy hk
    obtain ⟨j0, hj0, j1, hj1, j2, hj2, rfl⟩ := mem_loopIxs3.mp hy
    have hbj : ∀ t, (![j0, j1, j2] : Fin 3 → Nat) t < dims t := by
      intro t
      fin_cases t
      · simpa using hj0
      · simpa using hj1
      · simpa using hj2
    rw [addr3_eq dims perm hp ![j0, j1, j2], addr3_eq dims perm hp i] at hk
    obtain ⟨q0, q1, q2⟩ :=
      mixed3_inj (hbj (perm 1)) (hbj (perm 2)) (hi (perm 1)) (hi (perm 2)) hk
    have hall : (![j0, j1, j2] : Fin 3 → Nat) = i := by
      funext t
      obtain ⟨s, rfl⟩ := hp.surjective t
      fin_cases s
      · exact q0
      · exact q1
      · exact q2
    rw [hall]
  have hit := updFold_hit
    (fun v : Fin 3 → Nat => v 0 * perm_b_stride3 dims perm 0 +
      v 1 * perm_b_stride3 dims perm 1 + v 2 * perm_b_stride3 dims perm 2)
    (fun v : Fin 3 → Nat => a (v 0 * a_stride3 dims 0 + v 1 * a_stride3 dims 1 +
      v 2 * a_stride3 dims 2))
    (loopIxs3 (dims 0) (dims 1) (dims 2)) b i hmem huniq
  have hsrc : i 0 * (dims 1 * dims 2) + i 1 * dims 2 + i 2
      = i 0 * a_stride3 dims 0 + i 1 * a_stride3 dims 1 + i 2 * a_stride3 dims 2 := by
    simp [a_stride3]
  rw [← addr3_eq dims perm hp i, hsrc]
  exact hit

/-- Inverse-permutation array of `transpose_4d` (lines 182-184), modelled
like `perm_ind3`. -/
def perm_ind4 (perm : Fin 4 → Fin 4) : Fin 4 → Fin 4 :=
  Function.update
    (Function.update
      (Function.update (Function.update (fun _ => 0) (perm 0) 0) (perm 1) 1)
      (perm 2) 2)
    (perm 3) 3

/-- Source strides of `transpose_4d` (line 185). -/
def a_stride4 (dims : Fin 4 → Nat) : Fin 4 → Nat :=
  ![dims 1 * dims 2 * dims 3, dims 2 * dims 3, dims 3, 1]

/-- Destination strides of `transpose_4d` (lines 186-187). -/
def b_stride4 (dims : Fin 4 → Nat) (perm : Fin 4 → Fin 4) : Fin 4 → Nat :=
  ![dims (perm 1) * dims (perm 2) * dims (perm 3), dims (perm 2) * dims (perm 3),
    dims (perm 3), 1]

/-- Destination strides re-indexed by the inverse permutation
(lines 188-189). -/
def perm_b_stride4 (dims : Fin 4 → Nat) (perm : Fin 4 → Fin 4) : Fin 4 → Nat :=
  fun t => b_stride4 dims perm (perm_ind4 perm t)

/-- Embeds `transpose_4d` (lines 177-204). -/
def transpose_4d {α : Type} (a : Nat → α) (dims : Fin 4 → Nat)
    (perm : Fin 4 → Fin 4) (b : Nat → α) : Nat → α :=
  updFold
    (fun v => v 0 * perm_b_stride4 dims perm 0 + v 1 * perm_b_stride4 dims perm 1 +
      v 2 * perm_b_stride4 dims perm 2 + v 3 * perm_b_stride4 dims perm 3)
    (fun v => a (v 0 * a_stride4 dims 0 + v 1 * a_stride4 dims 1 +
      v 2 * a_stride4 dims 2 + v 3 * a_stride4 dims 3))
    (loopIxs4 (dims 0) (dims 1) (dims 2) (dims 3)) b

lemma perm_ind4_apply (perm : Fin 4 → Fin 4) (hinj : Function.Injective perm)
    (t : Fin 4) : perm_ind4 perm (perm t) = t := by
  have h01 : perm 0 ≠ perm 1 := fun h => absurd (hinj h) (by decide)
  have h02 : perm 0 ≠ perm 2 := fun h => absurd (hinj h) (by decide)
  have h03 : perm 0 ≠ perm 3 := fun h => absurd (hinj h) (by decide)
  have h12 : perm 1 ≠ perm 2 := fun h => absurd (hinj h) (by decide)
  have h13 : perm 1 ≠ perm 3 := fun h => absurd (hinj h) (by decide)
  have h23 : perm 2 ≠ perm 3 := fun h => absurd (hinj h) (by decide)
  have h0 : perm_ind4 perm (perm 0) = 0 := by
    unfold perm_ind4
    rw [Function.update_noteq h03, Function.update_noteq h02,
      Function.update_noteq h01, Function.update_same]
  have h1 : perm_ind4 perm (perm 1) = 1 := by
    unfold perm_ind4
    rw [Function.update_noteq h13, Function.update_noteq h12, Function.update_same]
  have h2 : perm_ind4 perm (perm 2) = 2 := by
    unfold perm_ind4
    rw [Function.update_noteq h23, Function.update_same]
  have h3 : perm_ind4 perm (perm 3) = 3 := by
    unfold perm_ind4
    rw [Function.update_same]
  fin_cases t
  · exact h0
  · exact h1
  · exact h2
  · exact h3

lemma reindex4 (g : Fin 4 → Nat) (p : Fin 4 → Fin 4) (hp : Function.Bijective p) :
    g (p 0) + g (p 1) + g (p 2) + g (p 3) = g 0 + g 1 + g 2 + g 3 := by
  have h := Equiv.sum_comp (Equiv.ofBijective p hp) g
  rw [Fin.sum_univ_four, Fin.sum_univ_four] at h
  exact h

lemma addr4_eq (dims : Fin 4 → Nat) (perm : Fin 4 → Fin 4)
    (hp : Function.Bijective perm) (v : Fin 4 → Nat) :
    v 0 * perm_b_stride4 dims perm 0 + v 1 * perm_b_stride4 dims perm 1 +
        v 2 * perm_b_stride4 dims perm 2 + v 3 * perm_b_stride4 dims perm 3
      = v (perm 0) * (dims (perm 1) * dims (perm 2) * dims (perm 3)) +
        v (perm 1) * (dims (perm 2) * dims (perm 3)) + v (perm 2) * dims (perm 3) +
        v (perm 3) := by
  have e0 := perm_ind4_apply perm hp.injective 0
  have e1 := perm_ind4_apply perm hp.injective 1
  have e2 := perm_ind4_apply perm hp.injective 2
  have e3 := perm_ind4_apply perm hp.injective 3
  have h := reindex4 (fun s => v s * b_stride4 dims perm (perm_ind4 perm s)) perm hp
  beta_reduce at h
  rw [e0, e1, e2, e3] at h
  have hL : ∀ t : Fin 4, v t * perm_b_stride4 dims perm t
      = v t * b_stride4 dims perm (perm_ind4 perm t) := fun t => rfl
  rw [hL 0, hL 1, hL 2, hL 3, ← h]
  simp [b_stride4]

lemma transpose_4d_spec (α : Type) (a b : Nat → α) (dims : Fin 4 → Nat)
    (perm : Fin 4 → Fin 4) (hp : Function.Bijective perm) (i : Fin 4 → Nat)
    (hi : ∀ t, i t < dims t) :
    transpose_4d a dims perm b
        (i (perm 0) * (dims (perm 1) * dims (perm 2) * dims (perm 3)) +
          i (perm 1) * (dims (perm 2) * dims (perm 3)) + i (perm 2) * dims (perm 3) +
          i (perm 3))
      = a (i 0 * (dims 1 * dims 2 * dims 3) + i 1 * (dims 2 * dims 3) +
          i 2 * dims 3 + i 3) := by
  have hveq : (![i 0, i 1, i 2, i 3] : Fin 4 → Nat) = i := by
    funext t
    fin_cases t <;> rfl
  have hmem : i ∈ loopIxs4 (dims 0) (dims 1) (dims 2) (dims 3) :=
    mem_loopIxs4.mpr ⟨i 0, hi 0, i 1, hi 1, i 2, hi 2, i 3, hi 3, hveq⟩
  have huniq : ∀ y ∈ loopIxs4 (dims 0) (dims 1) (dims 2) (dims 3),
      y 0 * perm_b_stride4 dims perm 0 + y 1 * perm_b_stride4 dims perm 1 +
          y 2 * perm_b_stride4 dims perm 2 + y 3 * perm_b_stride4 dims perm 3
        = i 0 * perm_b_stride4 dims perm 0 + i 1 * perm_b_stride4 dims perm 1 +
          i 2 * perm_b_stride4 dims perm 2 + i 3 * perm_b_stride4 dims perm 3 →
      a (y 0 * a_stride4 dims 0 + y 1 * a_stride4 dims 1 + y 2 * a_stride4 dims 2 +
          y 3 * a_stride4 dims 3)
        = a (i 0 * a_stride4 dims 0 + i 1 * a_stride4 dims 1 + i 2 * a_stride4 dims 2 +
          i 3 * a_stride4 dims 3) := by
    intro y hy hk
    obtain ⟨j0, hj0, j1, hj1, j2, hj2, j3, hj3, rfl⟩ := mem_loopIxs4.mp hy
    have hbj : ∀ t, (![j0, j1, j2, j3] : Fin 4 → Nat) t < dims t := by
      intro t
      fin_cases t
      · simpa using hj0
      · simpa using hj1
      · simpa using hj2
      · simpa using hj3
    rw [addr4_eq dims perm hp ![j0, j1, j2, j3], addr4_eq dims perm hp i] at hk
    obtain ⟨q0, q1, q2, q3⟩ :=
      mixed4_inj (hbj (perm 1)) (hbj (perm 2)) (hbj (perm 3))
        (hi (perm 1)) (hi (perm 2)) (hi (perm 3)) hk
    have hall : (![j0, j1, j2, j3] : Fin 4 → Nat) = i := by
      funext t
      obtain ⟨s, rfl⟩ := hp.surjective t
      fin_cases s
      · exact q0
      · exact q1
      · exact q2
      · exact q3
    rw [hall]
  have hit := updFold_hit
    (fun v : Fin 4 → Nat => v 0 * perm_b_stride4 dims perm 0 +
      v 1 * perm_b_stride4 dims perm 1 + v 2 * perm_b_stride4 dims perm 2 +
      v 3 * perm_b_stride4 dims perm 3)
    (fun v : Fin 4 → Nat => a (v 0 * a_stride4 dims 0 + v 1 * a_stride4 dims 1 +
      v 2 * a_stride4 dims 2 + v 3 * a_stride4 dims 3))
    (loopIxs4 (dims 0) (dims 1) (dims 2) (dims 3)) b i hmem huniq
  have hsrc : i 0 * (dims 1 * dims 2 * dims 3) + i 1 * (dims 2 * dims 3) +
        i 2 * dims 3 + i 3
      = i 0 * a_stride4 dims 0 + i 1 * a_stride4 dims 1 + i 2 * a_stride4 dims 2 +
        i 3 * a_stride4 dims 3 := by
    simp [a_stride4]
  rw [← addr4_eq dims perm hp i, hsrc]
  exact hit

/-- C1.  For a bijective permutation, `transpose_3d` (resp. `transpose_4d`)
maps the source element at the row-major offset of `(i0, ..., i_{n-1})` under
`dims` to the destination offset of `(i_{perm 0}, ..., i_{perm (n-1)})` under
the row-major strides of the permuted extents: viewing `b` as a row-major
tensor of shape `dims` permuted by `perm`, `b` at `(i_{perm 0}, ...)` equals
`a` at `(i_0, ...)`. -/
theorem transpose_3d_4d_permute :
    (∀ (α : Type) (a b : Nat → α) (dims : Fin 3 → Nat) (perm : Fin 3 → Fin 3),
        Function.Bijective perm → ∀ i : Fin 3 → Nat, (∀ t, i t < dims t) →
        transpose_3d a dims perm b
            (i (perm 0) * (dims (perm 1) * dims (perm 2)) +
              i (perm 1) * dims (perm 2) + i (perm 2))
          = a (i 0 * (dims 1 * dims 2) + i 1 * dims 2 + i 2)) ∧
      (∀ (α : Type) (a b : Nat → α) (dims : Fin 4 → Nat) (perm : Fin 4 → Fin 4),
        Function.Bijective perm → ∀ i : Fin 4 → Nat, (∀ t, i t < dims t) →
        transpose_4d a dims perm b
            (i (perm 0) * (dims (perm 1) * dims (perm 2) * dims (perm 3)) +
              i (perm 1) * (dims (perm 2) * dims (perm 3)) +
              i (perm 2) * dims (perm 3) + i (perm 3))
          = a (i 0 * (dims 1 * dims 2 * dims 3) + i 1 * (dims 2 * dims 3) +
              i 2 * dims 3 + i 3)) :=
  ⟨fun α a b dims perm hp i hi => transpose_3d_spec α a b dims perm hp i hi,
    fun α a b dims perm hp i hi => transpose_4d_spec α a b dims perm hp i hi⟩

/-- Witness for C1 at concrete inputs: 3d with dims `[2,2,2]`, perm
`(1,2,0)`, multi-index `(1,0,1)` (destination offset 3, source offset 5);
4d with dims `[2,2,2,2]`, perm `(3,0,2,1)`, multi-index `(1,0,1,0)`
(destination offset 6, source offset 10); the source buffer is the identity
function, so the copied value names its source offset. -/
theorem transpose_3d_4d_permute_witness :
    Function.Bijective (![1, 2, 0] : Fin 3 → Fin 3) ∧
      (∀ t, (![1, 0, 1] : Fin 3 → Nat) t < (![2, 2, 2] : Fin 3 → Nat) t) ∧
      transpose_3d (fun n => n) ![2, 2, 2] ![1, 2, 0] (fun _ => 0) 3 = 5 ∧
      Function.Bijective (![3, 0, 2, 1] : Fin 4 → Fin 4) ∧
      (∀ t, (![1, 0, 1, 0] : Fin 4 → Nat) t < (![2, 2, 2, 2] : Fin 4 → Nat) t) ∧
      transpose_4d (fun n => n) ![2, 2, 2, 2] ![3, 0, 2, 1] (fun _ => 0) 6 = 10 :=
  ⟨by decide, by decide,
    by
      have h := transpose_3d_4d_permute.1 Nat (fun n => n) (fun _ => 0)
        ![2, 2, 2] ![1, 2, 0] (by decide) ![1, 0, 1] (by decide)
      simpa using h,
    by decide, by decide,
    by
      have h := transpose_3d_4d_permute.2 Nat (fun n => n) (fun _ => 0)
        ![2, 2, 2, 2] ![3, 0, 2, 1] (by decide) ![1, 0, 1, 0] (by decide)
      simpa using h⟩

end primitives

end opennmt
